import Mathlib

/-!
# Verification of the universal-rules converter

Shallow embedding of the rule model, the three format converters
(Cursor, Windsurf, Claude), the rule-file parser and the .gitignore
merger of the `urules` CLI, together with proofs of the specification
claims.

Filesystem effects are modelled as explicit data: a converter returns
the list of directories it creates and the list of (path, content)
pairs it writes.  External library behaviour (the YAML serializer of
`serde_yaml` and its deserializer) is abstracted as a function
parameter, since it is not code of this repository; every code path
of the repository itself is embedded faithfully.
-/

namespace Urules

/-- Rust `char::is_whitespace` restricted to the ASCII whitespace that can
appear in the flows we verify. -/
def isWs (c : Char) : Bool :=
  c = ' ' ∨ c = '\t' ∨ c = '\n' ∨ c = '\r'

/-- Drop elements satisfying `p` from the right end of a list. -/
def dropRightWhile (p : Char → Bool) (l : List Char) : List Char :=
  (l.reverse.dropWhile p).reverse

/-- Rust `str::trim`: whitespace removed from both ends. -/
def trim (l : List Char) : List Char :=
  dropRightWhile isWs (l.dropWhile isWs)

/-- Rust `str::trim_start`. -/
def trimStart (l : List Char) : List Char := l.dropWhile isWs

/-- Rust `str::trim_end`. -/
def trimEnd (l : List Char) : List Char := dropRightWhile isWs l

/-- Rust `str::trim_matches('/')`: slashes removed from both ends. -/
def trimSlashes (l : List Char) : List Char :=
  (((l.dropWhile (· = '/')).reverse).dropWhile (· = '/')).reverse

/-- The lines of a text, as produced by Rust `BufRead::lines` /
`str::lines`: pieces between `'\n'` separators, a final piece without a
trailing newline included, no empty piece after a trailing newline.
(`'\r'` handling is irrelevant here: no carriage returns occur in the
verified flows.) -/
def linesOf : List Char → List (List Char)
  | [] => []
  | c :: t =>
    if c = '\n' then [] :: linesOf t
    else
      match linesOf t with
      | [] => [[c]]
      | h :: r => (c :: h) :: r

/-- Join lines, terminating each with `'\n'` — the accumulation
`s.push_str(&line); s.push('\n')` of the Rust code. -/
def unlines (ls : List (List Char)) : List Char :=
  (ls.map (· ++ ['\n'])).flatten

/-! ## Data model (src/universal_rule.rs) -/

/-- `UniversalRuleFrontmatter`: the YAML metadata of one rule. -/
structure UniversalRuleFrontmatter where
  description : Option String
  globs : Option (List String)
  apply_globally : Bool
  cursor_rule_type : Option String
  deriving Repr, DecidableEq

instance : Inhabited UniversalRuleFrontmatter :=
  ⟨{ description := none, globs := none, apply_globally := false,
     cursor_rule_type := none }⟩

/-- `UniversalRule`: name (from the file stem), metadata, Markdown body. -/
structure UniversalRule where
  name : String
  frontmatter : UniversalRuleFrontmatter
  content : String
  deriving Repr, DecidableEq

/-- A converter run's filesystem effect: directories created and files
written, in order. -/
structure FsEffect where
  dirs : List String
  writes : List (String × String)
  deriving Repr, DecidableEq

/-! ## Cursor converter (src/converters/cursor.rs) -/

/-- `MdcFrontmatter`: Cursor's `.mdc` YAML header fields. -/
structure MdcFrontmatter where
  description : Option String
  globs : Option (List String)
  always_apply : Option Bool
  agent_requested : Option Bool
  deriving Repr, DecidableEq

/-- The warning text printed for an unknown `cursor_rule_type` (the Rust
message wraps the two values in single quotes, elided here). -/
def cursorWarning (other name : String) : String :=
  "Warning: Unknown cursor_rule_type " ++ other ++ " for rule " ++ name
    ++ ", treating as Manual."

/-- `convert_to_cursor_rule`: maps a rule's shared metadata onto the
Cursor header and returns the body; the third component collects the
non-fatal warnings the Rust code prints to stderr. -/
def convert_to_cursor_rule (r : UniversalRule) :
    MdcFrontmatter × String × List String :=
  let base : MdcFrontmatter :=
    { description := r.frontmatter.description
      globs := r.frontmatter.globs
      always_apply := none
      agent_requested := none }
  match r.frontmatter.cursor_rule_type with
  | none => (base, r.content, [])
  | some t =>
    if t = "Always" then ({ base with always_apply := some true }, r.content, [])
    else if t = "AutoAttached" then (base, r.content, [])
    else if t = "AgentRequested" then ({ base with agent_requested := some true }, r.content, [])
    else if t = "Manual" then (base, r.content, [])
    else (base, r.content, [cursorWarning t r.name])

/-- Content of one `.mdc` output file, parametrised by the YAML
serializer (`serde_yaml::to_string`, external). -/
def mdcFileContent (ser : MdcFrontmatter → String) (r : UniversalRule) : String :=
  let conv := convert_to_cursor_rule r
  let fm := conv.1
  let fmYaml :=
    if fm.description = none ∧ fm.globs = none ∧ fm.always_apply = none ∧
        fm.agent_requested = none then "" else ser fm
  if fmYaml = "" then conv.2.1
  else "---\n" ++ String.mk (trimEnd fmYaml.data) ++ "---\n" ++ conv.2.1

/-- `CursorConverter::generate_rules`: creates `.cursor/rules`
unconditionally, then writes one `.mdc` file per rule. -/
def cursorGenerate (ser : MdcFrontmatter → String)
    (rules : List UniversalRule) : FsEffect :=
  { dirs := [".cursor/rules"]
    writes := rules.map fun r =>
      (".cursor/rules/" ++ r.name ++ ".mdc", mdcFileContent ser r) }

/-- Concrete placeholder serializer, used only to instantiate closed
statements; all general theorems quantify over the serializer. -/
def serStub : MdcFrontmatter → String := fun _ => "x: y\n"

/-! ## Windsurf converter (src/converters/windsurf.rs) -/

/-- Rust `escape_debug` of one character, as used by `{:?}` on strings
(`"# Globs: {:?}"`); non-control characters other than quote and
backslash pass through. -/
def escapeDebugChar (c : Char) : List Char :=
  if c = '"' then ['\\', '"']
  else if c = '\\' then ['\\', '\\']
  else if c = '\n' then ['\\', 'n']
  else if c = '\t' then ['\\', 't']
  else if c = '\r' then ['\\', 'r']
  else [c]

/-- Rust `{:?}` rendering of a `Vec<String>`: bracketed, comma-separated,
quoted. -/
def rustDebugStrList (gs : List String) : String :=
  "[" ++ String.intercalate ", "
    (gs.map fun g => String.mk ('"' :: (g.data.map escapeDebugChar).flatten ++ ['"'])) ++ "]"

/-- The optional `# Description:` comment line of a rule. -/
def windsurfDescComment (r : UniversalRule) : String :=
  match r.frontmatter.description with
  | some d => "# Description: " ++ d ++ "\n"
  | none => ""

/-- First pass of `WindsurfConverter::generate_rules`: accumulates the
concatenated global-rules text (each global rule followed by the
separator) and whether any workspace (non-global) rule exists. -/
def windsurfPass1 (rules : List UniversalRule) : String × Bool :=
  rules.foldl
    (fun acc r =>
      if r.frontmatter.apply_globally then
        (acc.1 ++ windsurfDescComment r ++ r.content ++ "\n\n---\n\n", acc.2)
      else (acc.1, true))
    ("", false)

/-- Content of one workspace rule file under `.windsurf/rules/`. -/
def windsurfWsContent (r : UniversalRule) : String :=
  let c1 := windsurfDescComment r
  let c2 := c1 ++
    match r.frontmatter.globs with
    | some gs => if gs.isEmpty then "" else "# Globs: " ++ rustDebugStrList gs ++ "\n"
    | none => ""
  let c3 := c2 ++ (if c2 = "" then "" else "\n")
  c3 ++ r.content

/-- The workspace-rule writes of the Windsurf converter (second pass,
performed only when a non-global rule exists). -/
def windsurfWorkspaceWrites (rules : List UniversalRule) : List (String × String) :=
  if (windsurfPass1 rules).2 then
    rules.filterMap fun r =>
      if r.frontmatter.apply_globally then none
      else some (".windsurf/rules/" ++ r.name ++ ".md", windsurfWsContent r)
  else []

/-- `WindsurfConverter::generate_rules`. -/
def windsurfGenerate (rules : List UniversalRule) : FsEffect :=
  let raw := (windsurfPass1 rules).1
  let hasWs := (windsurfPass1 rules).2
  let globalWrites :=
    if raw = "" then []
    else [("global_rules.md",
      if raw.endsWith "\n\n---\n\n" then
        String.mk (raw.data.take (raw.length - 7)) else raw)]
  { dirs := if hasWs then [".windsurf/rules"] else []
    writes := globalWrites ++ windsurfWorkspaceWrites rules }

/-! ## Claude converter (src/converters/claude.rs) -/

/-- One block of `CLAUDE.md`: heading, optional description, body. -/
def claudeBlock (r : UniversalRule) : String :=
  "## Rule: " ++ r.name ++ "\n" ++
    (match r.frontmatter.description with
     | some d => d ++ "\n\n"
     | none => "\n") ++
    r.content

/-- The full content of `CLAUDE.md`: blocks joined by the Markdown
separator. -/
def claudeContent (rules : List UniversalRule) : String :=
  String.intercalate "\n\n---\n\n" (rules.map claudeBlock)

/-- `ClaudeConverter::generate_rules`: writes nothing for an empty rule
list, otherwise a single `CLAUDE.md`. -/
def claudeGenerate (rules : List UniversalRule) : FsEffect :=
  if rules.isEmpty then { dirs := [], writes := [] }
  else { dirs := [], writes := [("CLAUDE.md", claudeContent rules)] }

/-! ## Rule-file parser (src/rule_parser.rs) -/

/-- Split a list at the first occurrence of the (nonempty) pattern
`pat`, returning the part before it and the part after it; `none` when
the pattern does not occur. -/
def splitOnce (pat : List Char) : List Char → Option (List Char × List Char)
  | [] => if pat = [] then some ([], []) else none
  | c :: t =>
    if pat.isPrefixOf (c :: t) then some ([], (c :: t).drop pat.length)
    else match splitOnce pat t with
      | some (a, b) => some (c :: a, b)
      | none => none

/-- Rust `str::splitn(3, pat)`: at most three parts, split at the first
two non-overlapping occurrences of `pat`. -/
def splitn3 (pat l : List Char) : List (List Char) :=
  match splitOnce pat l with
  | none => [l]
  | some (a, r) =>
    match splitOnce pat r with
    | none => [a, r]
    | some (b, r2) => [a, b, r2]

/-- The three-hyphen metadata delimiter. -/
def ddd : List Char := ['-', '-', '-']

/-- `parse_rule_file`, with filesystem access abstracted away: the file
content is given directly, the file stem (`Path::file_stem`) as an
`Option String`, and the YAML deserializer (`serde_yaml::from_str`,
external) as a function returning `Except`. -/
def parse_rule_file (yaml : String → Except String UniversalRuleFrontmatter)
    (file_stem : Option String) (file_content : String) :
    Except String UniversalRule :=
  let fmBody : List Char × List Char :=
    if ddd.isPrefixOf file_content.data then
      let parts := splitn3 ddd file_content.data
      (trim ((parts.get? 1).getD []), trimStart ((parts.get? 2).getD []))
    else ([], file_content.data)
  match (if fmBody.1 = [] then Except.ok default
         else yaml (String.mk fmBody.1)) with
  | .error e => .error e
  | .ok fm =>
    match file_stem with
    | none => .error "Failed to get file stem"
    | some name => .ok ⟨name, fm, String.mk fmBody.2⟩

/-- Concrete placeholder deserializer for closed statements; general
theorems quantify over the deserializer. -/
def yamlStub : String → Except String UniversalRuleFrontmatter :=
  fun _ => .error "unused"

/-! ## Ignore-file merger (src/gitignore_manager.rs) -/

/-- The target format selector (`AgentName` in main.rs). -/
inductive AgentName where
  | Cursor
  | Windsurf
  | Claude
  deriving Repr, DecidableEq

/-- The managed-section start marker line. -/
def GITIGNORE_HEADER : List Char := "# Added by urules".data

/-- The managed-section end marker line. -/
def GITIGNORE_FOOTER : List Char := "# End urules section".data

/-- The fixed ignore patterns each format's outputs require. -/
def patternsToAdd : AgentName → List (List Char)
  | .Cursor => [".cursor/".data]
  | .Windsurf => ["global_rules.md".data, ".windsurf/".data]
  | .Claude => ["CLAUDE.md".data]

/-- State of the line-scanning loop of `update_gitignore`: the three
text regions kept as line lists (the Rust code accumulates
`line + "\n"` into strings; `unlines` recovers those strings), the
set of trimmed lines seen in `pre`/`section` (the Rust `HashSet`,
kept as a list and used only through membership), and the two flags. -/
structure GiState where
  pre : List (List Char)
  sec : List (List Char)
  post : List (List Char)
  existing : List (List Char)
  inSec : Bool
  headerFound : Bool
  deriving Repr, DecidableEq

def giInit : GiState :=
  { pre := [], sec := [], post := [], existing := [],
    inSec := false, headerFound := false }

/-- One iteration of the reader loop of `update_gitignore`. -/
def giStep (st : GiState) (line : List Char) : GiState :=
  if trim line = GITIGNORE_HEADER then
    { st with inSec := true, headerFound := true }
  else if trim line = GITIGNORE_FOOTER ∧ st.inSec then
    { st with inSec := false }
  else if st.headerFound ∧ st.inSec then
    { st with sec := st.sec ++ [line], existing := st.existing ++ [trim line] }
  else if st.headerFound = false then
    { st with pre := st.pre ++ [line], existing := st.existing ++ [trim line] }
  else
    { st with post := st.post ++ [line] }

/-- The whole reader loop. -/
def giParse (ls : List (List Char)) : GiState := ls.foldl giStep giInit

/-- The five textual variations checked for a pattern: as-is, leading
slash, trailing slash, both, all slashes stripped. -/
def variations (p : List Char) : List (List Char) :=
  let t := trimSlashes p
  [p, '/' :: t, t ++ ['/'], '/' :: (t ++ ['/']), t]

/-- `is_present`: some variation, trimmed, is an existing line. -/
def isPresent (existing : List (List Char)) (p : List Char) : Bool :=
  (variations p).any fun v => decide (trim v ∈ existing)

/-- `final_new_patterns`: the required patterns not already present. -/
def finalNewPatterns (agent : AgentName) (st : GiState) : List (List Char) :=
  (patternsToAdd agent).filter fun p => ¬ isPresent st.existing p

/-- The new patterns that actually get written: the loop re-checks that
a pattern is not trim-equal to a line of the old section content or of
`pre` (Rust iterates `content.lines()` on the accumulated strings). -/
def writtenPats (st : GiState) (newPats : List (List Char)) : List (List Char) :=
  newPats.filter fun p =>
    ¬ (linesOf (unlines st.sec)).any (fun l => trim l = trim p) ∧
    ¬ (linesOf (unlines st.pre)).any (fun l => trim l = trim p)

/-- The rebuilt `.gitignore` content before the final trailing-newline
normalisation: `pre` (newline ensured), header line, old section
content, the new patterns not duplicated in section or pre, footer
line, `post`. -/
def rebuildContent (st : GiState) (newPats : List (List Char)) : List Char :=
  let preC := unlines st.pre
  preC ++
    (if preC ≠ [] ∧ preC.getLast? ≠ some '\n' then ['\n'] else []) ++
    GITIGNORE_HEADER ++ ['\n'] ++
    unlines st.sec ++
    unlines (writtenPats st newPats) ++
    GITIGNORE_FOOTER ++ ['\n'] ++
    unlines st.post

/-- Decision and write of `update_gitignore`, starting from a parsed
state: rewrite (returning the written bytes) unless no pattern is new
and the managed header was found. -/
def giDecide (agent : AgentName) (st : GiState) : Option (List Char) :=
  let newPats := finalNewPatterns agent st
  if newPats ≠ [] ∨ st.headerFound = false then
    some (dropRightWhile (· = '\n') (rebuildContent st newPats) ++ ['\n'])
  else none

/-- The state `update_gitignore` computes from the (possibly absent)
existing file. -/
def giStateOf (existing : Option String) : GiState :=
  match existing with
  | none => giInit
  | some c => giParse (linesOf c.data)

/-- `update_gitignore`: `none` means no write; `some w` means the file
now holds exactly `w`. -/
def update_gitignore (existing : Option String) (agent : AgentName) :
    Option String :=
  (giDecide agent (giStateOf existing)).map String.mk

/-- The file content after a run: the written bytes, or the untouched
previous content. -/
def afterRun (existing : Option String) (agent : AgentName) : Option String :=
  match update_gitignore existing agent with
  | some w => some w
  | none => existing

/-! ## Theorems: Cursor converter -/

/-- The four activation-mode values the Cursor mapping recognizes. -/
def recognizedModes : List String := ["Always", "AutoAttached", "AgentRequested", "Manual"]

/-- C6: the Cursor metadata mapping sets `alwaysApply` exactly for mode
`Always`, `agentRequested` exactly for `AgentRequested`, copies
description and globs through unchanged, warns (naming the rule and the
value) exactly on unrecognized modes, and never warns on recognized or
absent modes. -/
theorem cursor_activation_mapping (r : UniversalRule) :
    (convert_to_cursor_rule r).1.always_apply
      = (if r.frontmatter.cursor_rule_type = some "Always" then some true else none) ∧
    (convert_to_cursor_rule r).1.agent_requested
      = (if r.frontmatter.cursor_rule_type = some "AgentRequested" then some true else none) ∧
    (convert_to_cursor_rule r).1.description = r.frontmatter.description ∧
    (convert_to_cursor_rule r).1.globs = r.frontmatter.globs ∧
    (convert_to_cursor_rule r).2.1 = r.content ∧
    (∀ m, r.frontmatter.cursor_rule_type = some m → m ∉ recognizedModes →
      (convert_to_cursor_rule r).2.2 = [cursorWarning m r.name]) ∧
    ((r.frontmatter.cursor_rule_type = none ∨
        ∃ m ∈ recognizedModes, r.frontmatter.cursor_rule_type = some m) →
      (convert_to_cursor_rule r).2.2 = []) := by
  cases h : r.frontmatter.cursor_rule_type with
  | none => simp [convert_to_cursor_rule, h]
  | some t =>
    by_cases h1 : t = "Always"
    · subst h1
      simp [convert_to_cursor_rule, h, recognizedModes]
    · by_cases h2 : t = "AutoAttached"
      · subst h2
        simp [convert_to_cursor_rule, h, recognizedModes]
      · by_cases h3 : t = "AgentRequested"
        · subst h3
          simp [convert_to_cursor_rule, h, recognizedModes]
        · by_cases h4 : t = "Manual"
          · subst h4
            simp [convert_to_cursor_rule, h, recognizedModes]
          · simp [convert_to_cursor_rule, h, h1, h2, h3, h4, recognizedModes]

/-- Witness for C6 at a concrete rule with an unrecognized mode. -/
theorem cursor_activation_mapping_witness :
    (convert_to_cursor_rule ⟨"r1", ⟨some "d", none, false, some "Weird"⟩, "B"⟩).1.always_apply
      = (if (⟨"r1", ⟨some "d", none, false, some "Weird"⟩, "B"⟩ : UniversalRule).frontmatter.cursor_rule_type = some "Always" then some true else none) ∧
    (convert_to_cursor_rule ⟨"r1", ⟨some "d", none, false, some "Weird"⟩, "B"⟩).1.agent_requested
      = (if (⟨"r1", ⟨some "d", none, false, some "Weird"⟩, "B"⟩ : UniversalRule).frontmatter.cursor_rule_type = some "AgentRequested" then some true else none) ∧
    (convert_to_cursor_rule ⟨"r1", ⟨some "d", none, false, some "Weird"⟩, "B"⟩).1.description = some "d" ∧
    (convert_to_cursor_rule ⟨"r1", ⟨some "d", none, false, some "Weird"⟩, "B"⟩).1.globs = none ∧
    (convert_to_cursor_rule ⟨"r1", ⟨some "d", none, false, some "Weird"⟩, "B"⟩).2.1 = "B" ∧
    (∀ m, some "Weird" = some m → m ∉ recognizedModes →
      (convert_to_cursor_rule ⟨"r1", ⟨some "d", none, false, some "Weird"⟩, "B"⟩).2.2 = [cursorWarning m "r1"]) ∧
    ((some "Weird" = none ∨ ∃ m ∈ recognizedModes, some "Weird" = some m) →
      (convert_to_cursor_rule ⟨"r1", ⟨some "d", none, false, some "Weird"⟩, "B"⟩).2.2 = []) :=
  cursor_activation_mapping ⟨"r1", ⟨some "d", none, false, some "Weird"⟩, "B"⟩

/-- C5: a rule with entirely empty metadata produces an output file
that is byte-identical to its body, with no header delimiter added
(in particular a delimiter-free body yields a delimiter-free file). -/
theorem cursor_empty_metadata_body_identity (ser : MdcFrontmatter → String)
    (r : UniversalRule)
    (hd : r.frontmatter.description = none)
    (hg : r.frontmatter.globs = none)
    (hm : r.frontmatter.cursor_rule_type = none) :
    mdcFileContent ser r = r.content ∧
      (¬ ddd <:+: r.content.data → ¬ ddd <:+: (mdcFileContent ser r).data) := by
  have h : mdcFileContent ser r = r.content := by
    simp [mdcFileContent, convert_to_cursor_rule, hd, hg, hm]
  exact ⟨h, fun hn => by rw [h]; exact hn⟩

/-- Witness for C5 at a concrete metadata-free rule. -/
theorem cursor_empty_metadata_body_identity_witness :
    mdcFileContent serStub ⟨"n", ⟨none, none, false, none⟩, "B"⟩ = "B" ∧
      (¬ ddd <:+: ("B" : String).data →
        ¬ ddd <:+: (mdcFileContent serStub ⟨"n", ⟨none, none, false, none⟩, "B"⟩).data) :=
  cursor_empty_metadata_body_identity serStub ⟨"n", ⟨none, none, false, none⟩, "B"⟩ rfl rfl rfl

/-- C2 counterexample: converting an empty rule list with the Cursor
converter still creates the `.cursor/rules` directory, refuting the
claim that no directories are created for any target format. -/
theorem convert_empty_rules_counterexample :
    (cursorGenerate serStub []).writes = [] ∧
    (cursorGenerate serStub []).dirs = [".cursor/rules"] ∧
    (cursorGenerate serStub []).dirs ≠ [] :=
  ⟨rfl, rfl, by decide⟩

/-- C2 amended: on an empty rule list the Windsurf and Claude
converters write no files and create no directories, and the Cursor
converter writes no files but always creates `.cursor/rules`. -/
theorem convert_empty_rules_amended (ser : MdcFrontmatter → String) :
    (cursorGenerate ser []).writes = [] ∧
    (cursorGenerate ser []).dirs = [".cursor/rules"] ∧
    windsurfGenerate [] = { dirs := [], writes := [] } ∧
    claudeGenerate [] = { dirs := [], writes := [] } :=
  ⟨rfl, rfl, rfl, rfl⟩

/-! ## Theorems: Windsurf converter -/

/-- The concatenation of the global blocks, in input order (reference
form of the first Windsurf pass). -/
def windsurfGlobalConcat : List UniversalRule → String
  | [] => ""
  | r :: rest =>
    if r.frontmatter.apply_globally then
      windsurfDescComment r ++ r.content ++ "\n\n---\n\n" ++ windsurfGlobalConcat rest
    else windsurfGlobalConcat rest

theorem windsurfPass1_go (rules : List UniversalRule) (a : String) (b : Bool) :
    rules.foldl
      (fun acc r =>
        if r.frontmatter.apply_globally then
          (acc.1 ++ windsurfDescComment r ++ r.content ++ "\n\n---\n\n", acc.2)
        else (acc.1, true)) (a, b)
      = (a ++ windsurfGlobalConcat rules,
         b || rules.any fun r => !r.frontmatter.apply_globally) := by
  induction rules generalizing a b with
  | nil => simp [windsurfGlobalConcat]
  | cons r rest ih =>
    by_cases hg : r.frontmatter.apply_globally
    · simp only [List.foldl_cons, List.any_cons, hg, if_true, ih,
        windsurfGlobalConcat, Bool.not_true, Bool.false_or]
      rw [Prod.mk.injEq]
      exact ⟨by simp [String.append_assoc], rfl⟩
    · simp only [List.foldl_cons, List.any_cons, hg, if_false, ih,
        windsurfGlobalConcat, Bool.not_false, Bool.true_or]
      simp [hg]

theorem windsurfPass1_eq (rules : List UniversalRule) :
    windsurfPass1 rules
      = (windsurfGlobalConcat rules,
         rules.any fun r => !r.frontmatter.apply_globally) := by
  have := windsurfPass1_go rules "" false
  simpa [windsurfPass1] using this

theorem windsurfGlobalConcat_filter (rules : List UniversalRule) :
    windsurfGlobalConcat (rules.filter fun r => r.frontmatter.apply_globally)
      = windsurfGlobalConcat rules := by
  induction rules with
  | nil => rfl
  | cons r rest ih =>
    by_cases hg : r.frontmatter.apply_globally
    · simp [List.filter_cons, hg, windsurfGlobalConcat, ih]
    · simp [List.filter_cons, hg, windsurfGlobalConcat, ih]

theorem windsurf_filterMap_eq (rules : List UniversalRule)
    (f : UniversalRule → String × String) :
    (rules.filterMap fun r =>
      if r.frontmatter.apply_globally then none else some (f r))
      = (rules.filter fun r => !r.frontmatter.apply_globally).map f := by
  induction rules with
  | nil => rfl
  | cons r rest ih =>
    by_cases hg : r.frontmatter.apply_globally
    · simp [List.filterMap_cons, List.filter_cons, hg, ih]
    · simp [List.filterMap_cons, List.filter_cons, hg, ih]

/-- C7: the Windsurf converter partitions rules by `apply_globally`:
the workspace files are exactly one per non-global rule (each built
from that rule alone), and the global-file text is a function of the
globally-applied sublist alone. -/
theorem windsurf_partition (rules : List UniversalRule) :
    windsurfWorkspaceWrites rules
      = (rules.filter fun r => !r.frontmatter.apply_globally).map
          (fun r => (".windsurf/rules/" ++ r.name ++ ".md", windsurfWsContent r)) ∧
    (windsurfPass1 rules).1
      = (windsurfPass1 (rules.filter fun r => r.frontmatter.apply_globally)).1 := by
  constructor
  · unfold windsurfWorkspaceWrites
    by_cases h : (windsurfPass1 rules).2
    · rw [if_pos h, windsurf_filterMap_eq]
    · rw [if_neg h]
      rw [windsurfPass1_eq] at h
      simp only [Bool.not_eq_true] at h
      have : rules.filter (fun r => !r.frontmatter.apply_globally) = [] := by
        rw [List.filter_eq_nil_iff]
        intro a ha hcon
        have hany : (rules.any fun r => !r.frontmatter.apply_globally) = true :=
          List.any_eq_true.mpr ⟨a, ha, hcon⟩
        rw [hany] at h
        exact Bool.noConfusion h
      rw [this, List.map_nil]
  · rw [windsurfPass1_eq, windsurfPass1_eq, windsurfGlobalConcat_filter]

/-! ## Theorems: Claude converter

Counting occurrences of the block separator `"\n\n---\n\n"` in the
joined `CLAUDE.md` content.  The content of a rule can itself contain
the separator, so the spec's count is only correct for rule blocks
free of three consecutive hyphens; the development below proves that
corrected count and refutes the unconditional claim. -/

/-- The Markdown separator between Claude blocks, as a char list. -/
def sepL : List Char := "\n\n---\n\n".data

theorem sepL_eq : sepL = '\n' :: '\n' :: '-' :: '-' :: '-' :: '\n' :: '\n' :: [] := rfl

/-- Number of positions at which `pat` occurs in `l` (occurrences may
overlap; for this separator, occurrences in the joined content cannot
overlap, so this agrees with the non-overlapping count). -/
def countOcc (pat : List Char) : List Char → Nat
  | [] => 0
  | c :: t => (if pat <+: (c :: t) then 1 else 0) + countOcc pat t

/-- Separator-join in explicit recursive form. -/
def joinSep (sep : List Char) : List (List Char) → List Char
  | [] => []
  | [b] => b
  | b :: b2 :: bs => b ++ sep ++ joinSep sep (b2 :: bs)

theorem intercalate_go_data (s : String) :
    ∀ (as : List String) (acc : String),
      (String.intercalate.go acc s as).data
        = acc.data ++ (as.map fun a => s.data ++ a.data).flatten := by
  intro as
  induction as with
  | nil => intro acc; simp [String.intercalate.go]
  | cons a as ih =>
    intro acc
    simp [String.intercalate.go, ih]

theorem joinSep_eq_flatten (sep : List Char) :
    ∀ (xs : List (List Char)) (x : List Char),
      x ++ (xs.map fun y => sep ++ y).flatten = joinSep sep (x :: xs) := by
  intro xs
  induction xs with
  | nil => intro x; simp [joinSep]
  | cons y ys ih =>
    intro x
    simp only [List.map_cons, List.flatten_cons, joinSep]
    rw [← ih y]
    simp [List.append_assoc]

theorem intercalate_data (s : String) (l : List String) :
    (String.intercalate s l).data = joinSep s.data (l.map String.data) := by
  cases l with
  | nil => rfl
  | cons a as =>
    show (String.intercalate.go a s as).data = _
    rw [intercalate_go_data, List.map_cons]
    have h := joinSep_eq_flatten s.data (as.map String.data) a.data
    rw [List.map_map] at h
    exact h

theorem prefix_of_prefix_append (pat x y : List Char) (h : pat <+: x ++ y)
    (hl : pat.length ≤ x.length) : pat <+: x := by
  rw [List.prefix_iff_eq_take] at h
  rw [List.take_append_of_le_length hl] at h
  rw [h]; exact List.take_prefix _ _

theorem infix_of_prefix_drop {pat l : List Char} {n : Nat} (h : pat <+: l.drop n) :
    pat <:+: l := h.isInfix.trans (List.drop_suffix n l).isInfix

theorem infix_of_infix_cons {pat t : List Char} {c : Char} (h : pat <:+: t) :
    pat <:+: c :: t := h.trans (List.suffix_cons c t).isInfix

theorem ddd_from_sep {l : List Char} (h : sepL <+: l) : ddd <+: l.drop 2 := by
  obtain ⟨u, hu⟩ := h
  subst hu
  rw [sepL_eq]
  exact ⟨'\n' :: '\n' :: u, rfl⟩

theorem countOcc_eq_zero {b : List Char} (hb : ¬ ddd <:+: b) : countOcc sepL b = 0 := by
  induction b with
  | nil => rfl
  | cons c t ih =>
    have h1 : ¬ sepL <+: (c :: t) := fun h =>
      hb (infix_of_prefix_drop (ddd_from_sep h))
    have h2 : ¬ ddd <:+: t := fun h => hb (infix_of_infix_cons h)
    simp [countOcc, h1, ih h2]

theorem sep_not_prefix_junction (b u : List Char) (hne : b ≠ [])
    (hb : ¬ ddd <:+: b) : ¬ sepL <+: (b ++ (sepL ++ u)) := by
  intro h
  by_cases hlen : 5 ≤ b.length
  · have h3 : ddd <+: (b ++ (sepL ++ u)).drop 2 := ddd_from_sep h
    rw [List.drop_append_of_le_length (by omega)] at h3
    have h4 : ddd <+: b.drop 2 := by
      refine prefix_of_prefix_append _ _ _ h3 ?_
      rw [show ddd.length = 3 from rfl, List.length_drop]
      omega
    exact hb (infix_of_prefix_drop h4)
  · obtain ⟨v, hv⟩ := h
    rcases b with _ | ⟨c1, _ | ⟨c2, _ | ⟨c3, _ | ⟨c4, rest⟩⟩⟩⟩
    · exact hne rfl
    · rw [sepL_eq] at hv; simp at hv
    · rw [sepL_eq] at hv; simp at hv
    · rw [sepL_eq] at hv; simp at hv
    · rcases rest with _ | ⟨c5, rest'⟩
      · rw [sepL_eq] at hv; simp at hv
      · exact hlen (by simp)

theorem countOcc_block_append {b t : List Char} (hb : ¬ ddd <:+: b) :
    countOcc sepL (b ++ (sepL ++ t)) = countOcc sepL (sepL ++ t) := by
  induction b with
  | nil => simp
  | cons c b' ih =>
    have hb' : ¬ ddd <:+: b' := fun h => hb (infix_of_infix_cons h)
    have h1 : ¬ sepL <+: ((c :: b') ++ (sepL ++ t)) :=
      sep_not_prefix_junction (c :: b') t (by simp) hb
    simp only [List.cons_append] at h1 ⊢
    rw [countOcc, if_neg h1, ih hb']
    simp

theorem ddd_not_prefix_block_append (b u : List Char) (hb : ¬ ddd <:+: b)
    (hu : u = [] ∨ ∃ t, u = sepL ++ t) : ¬ ddd <+: (b ++ u) := by
  intro h
  by_cases hlen : 3 ≤ b.length
  · refine hb (List.IsPrefix.isInfix ?_)
    refine prefix_of_prefix_append _ _ _ h ?_
    simpa [ddd] using hlen
  · rcases b with _ | ⟨c1, _ | ⟨c2, _ | ⟨c3, rest⟩⟩⟩
    · rcases hu with rfl | ⟨t, rfl⟩
      · simp [ddd] at h
      · obtain ⟨v, hv⟩ := h; rw [sepL_eq] at hv; simp [ddd] at hv
    · rcases hu with rfl | ⟨t, rfl⟩
      · have := h.length_le; simp [ddd] at this
      · obtain ⟨v, hv⟩ := h; rw [sepL_eq] at hv; simp [ddd] at hv
    · rcases hu with rfl | ⟨t, rfl⟩
      · have := h.length_le; simp [ddd] at this
      · obtain ⟨v, hv⟩ := h; rw [sepL_eq] at hv; simp [ddd] at hv
    · exact hlen (by simp)

theorem goodHead_joinSep (blocks : List (List Char))
    (hb : ∀ b ∈ blocks, ¬ ddd <:+: b) :
    ¬ ddd <+: joinSep sepL blocks ∧ ¬ ddd <+: (joinSep sepL blocks).drop 1 := by
  cases blocks with
  | nil =>
    constructor <;> · simp [joinSep, ddd]
  | cons b rest =>
    have hbb := hb b (List.mem_cons_self b rest)
    obtain ⟨u, hu_eq, hu⟩ :
        ∃ u, joinSep sepL (b :: rest) = b ++ u ∧ (u = [] ∨ ∃ t, u = sepL ++ t) := by
      cases rest with
      | nil => exact ⟨[], by simp [joinSep], Or.inl rfl⟩
      | cons b2 bs =>
        exact ⟨sepL ++ joinSep sepL (b2 :: bs), by simp [joinSep, List.append_assoc],
          Or.inr ⟨_, rfl⟩⟩
    rw [hu_eq]
    refine ⟨ddd_not_prefix_block_append b u hbb hu, ?_⟩
    cases b with
    | nil =>
      simp only [List.nil_append]
      rcases hu with rfl | ⟨t, rfl⟩
      · simp [ddd]
      · rw [sepL_eq]
        rintro ⟨v, hv⟩
        simp [ddd] at hv
    | cons c b' =>
      have hb' : ¬ ddd <:+: b' := fun h => hbb (infix_of_infix_cons h)
      simp only [List.cons_append, List.drop_succ_cons, List.drop_zero]
      exact ddd_not_prefix_block_append b' u hb' hu

theorem countOcc_sep_append {t : List Char} (h1 : ¬ ddd <+: t)
    (h2 : ¬ ddd <+: t.drop 1) :
    countOcc sepL (sepL ++ t) = 1 + countOcc sepL t := by
  have i0 : sepL <+: ('\n' :: '\n' :: '-' :: '-' :: '-' :: '\n' :: '\n' ::t) := ⟨t, by simp [sepL_eq]⟩
  have i1 : ¬ sepL <+: ('\n' :: '-' :: '-' :: '-' :: '\n' :: '\n' ::t) := by
    rintro ⟨v, hv⟩; rw [sepL_eq] at hv; simp at hv
  have i2 : ¬ sepL <+: ('-' :: '-' :: '-' :: '\n' :: '\n' ::t) := by
    rintro ⟨v, hv⟩; rw [sepL_eq] at hv; simp at hv
  have i3 : ¬ sepL <+: ('-' :: '-' :: '\n' :: '\n' ::t) := by
    rintro ⟨v, hv⟩; rw [sepL_eq] at hv; simp at hv
  have i4 : ¬ sepL <+: ('-' :: '\n' :: '\n' ::t) := by
    rintro ⟨v, hv⟩; rw [sepL_eq] at hv; simp at hv
  have i5 : ¬ sepL <+: ('\n' :: '\n' ::t) := by
    rintro ⟨v, hv⟩; rw [sepL_eq] at hv
    simp only [List.cons_append, List.nil_append, List.cons.injEq, true_and] at hv
    exact h1 ⟨'\n' :: '\n' :: v, by rw [← hv]; rfl⟩
  have i6 : ¬ sepL <+: ('\n' ::t) := by
    rintro ⟨v, hv⟩; rw [sepL_eq] at hv
    simp only [List.cons_append, List.nil_append, List.cons.injEq, true_and] at hv
    refine h2 ⟨'\n' :: '\n' :: v, ?_⟩
    rw [← hv]
    rfl
  rw [sepL_eq] at i0 i1 i2 i3 i4 i5 i6
  rw [sepL_eq]
  simp only [List.cons_append, List.nil_append]
  rw [countOcc, countOcc, countOcc, countOcc, countOcc, countOcc, countOcc]
  rw [if_pos i0, if_neg i1, if_neg i2, if_neg i3, if_neg i4, if_neg i5, if_neg i6]
  omega

theorem countOcc_joinSep (blocks : List (List Char)) (hne : blocks ≠ [])
    (hb : ∀ b ∈ blocks, ¬ ddd <:+: b) :
    countOcc sepL (joinSep sepL blocks) = blocks.length - 1 := by
  induction blocks with
  | nil => exact absurd rfl hne
  | cons b rest ih =>
    cases rest with
    | nil => simpa [joinSep] using countOcc_eq_zero (hb b (by simp))
    | cons b2 bs =>
      have hrest : ∀ x ∈ b2 :: bs, ¬ ddd <:+: x := fun x hx =>
        hb x (List.mem_cons_of_mem b hx)
      have hgh := goodHead_joinSep (b2 :: bs) hrest
      have hA : countOcc sepL (joinSep sepL (b :: b2 :: bs))
          = countOcc sepL (sepL ++ joinSep sepL (b2 :: bs)) := by
        have : joinSep sepL (b :: b2 :: bs)
            = b ++ (sepL ++ joinSep sepL (b2 :: bs)) := by
          simp [joinSep, List.append_assoc]
        rw [this]
        exact countOcc_block_append (hb b (by simp))
      rw [hA, countOcc_sep_append hgh.1 hgh.2, ih (by simp) hrest]
      simp only [List.length_cons]
      omega

/-- C8 (amended): for a nonempty rule list whose blocks contain no
three consecutive hyphens, the `CLAUDE.md` content written by the
Claude converter contains exactly N−1 occurrences of the separator
`"\n\n---\n\n"` (so zero for a single rule). -/
theorem claude_separator_count (rules : List UniversalRule) (hne : rules ≠ [])
    (hdd : ∀ r ∈ rules, ¬ ddd <:+: (claudeBlock r).data) :
    (claudeGenerate rules).writes = [("CLAUDE.md", claudeContent rules)] ∧
    countOcc sepL (claudeContent rules).data = rules.length - 1 := by
  constructor
  · rw [claudeGenerate, if_neg (by simpa using hne)]
  · have hdata : (claudeContent rules).data
        = joinSep sepL (rules.map fun r => (claudeBlock r).data) := by
      rw [claudeContent, intercalate_data, List.map_map]
      rfl
    rw [hdata, countOcc_joinSep]
    · simp
    · simpa using hne
    · intro b hbmem
      obtain ⟨r, hr, rfl⟩ := List.mem_map.mp hbmem
      exact hdd r hr

/-- Witness for C8 (amended) at two concrete hyphen-free rules. -/
theorem claude_separator_count_witness :
    (claudeGenerate [⟨"a", ⟨none, none, false, none⟩, "X"⟩,
        ⟨"b", ⟨none, none, false, none⟩, "Y"⟩]).writes
      = [("CLAUDE.md", claudeContent [⟨"a", ⟨none, none, false, none⟩, "X"⟩,
          ⟨"b", ⟨none, none, false, none⟩, "Y"⟩])] ∧
    countOcc sepL (claudeContent [⟨"a", ⟨none, none, false, none⟩, "X"⟩,
        ⟨"b", ⟨none, none, false, none⟩, "Y"⟩]).data = 1 :=
  claude_separator_count
    [⟨"a", ⟨none, none, false, none⟩, "X"⟩, ⟨"b", ⟨none, none, false, none⟩, "Y"⟩]
    (by decide) (by decide)

/-- C8 counterexample: a two-rule list whose first body contains the
separator yields two separator occurrences in `CLAUDE.md`, not N−1 = 1,
refuting the unconditional claim. -/
theorem claude_separator_count_counterexample :
    2 ≤ ([⟨"a", ⟨none, none, false, none⟩, "X\n\n---\n\nY"⟩,
        ⟨"b", ⟨none, none, false, none⟩, "Z"⟩] : List UniversalRule).length ∧
    countOcc sepL (claudeContent [⟨"a", ⟨none, none, false, none⟩, "X\n\n---\n\nY"⟩,
        ⟨"b", ⟨none, none, false, none⟩, "Z"⟩]).data = 2 ∧
    countOcc sepL (claudeContent [⟨"a", ⟨none, none, false, none⟩, "X\n\n---\n\nY"⟩,
        ⟨"b", ⟨none, none, false, none⟩, "Z"⟩]).data ≠
      ([⟨"a", ⟨none, none, false, none⟩, "X\n\n---\n\nY"⟩,
        ⟨"b", ⟨none, none, false, none⟩, "Z"⟩] : List UniversalRule).length - 1 := by
  refine ⟨by decide, by decide, by decide⟩

/-! ## Theorems: rule-file parser -/

theorem splitOnce_eq_none {pat l : List Char} (hne : pat ≠ []) (h : ¬ pat <:+: l) :
    splitOnce pat l = none := by
  induction l with
  | nil => simp [splitOnce, hne]
  | cons c t ih =>
    rw [splitOnce, if_neg, ih (fun hi => h (infix_of_infix_cons hi))]
    intro hp
    exact h (List.IsPrefix.isInfix (List.isPrefixOf_iff_prefix.mp hp))

theorem splitOnce_ddd_append (tail : List Char) :
    splitOnce ddd (ddd ++ tail) = some ([], tail) := by
  show splitOnce ddd ('-' :: '-' :: '-' ::tail) = some ([], tail)
  rw [splitOnce, if_pos]
  · simp [ddd]
  · simp [ddd, List.isPrefixOf]

/-- C9 (amended): for every successfully parsed rule file, the body is
the entire file content verbatim when no metadata header is present,
and the raw text following the second delimiter with leading
whitespace stripped (`trim_start`) when a header is present. -/
theorem parse_body_raw (yaml : String → Except String UniversalRuleFrontmatter)
    (stem : Option String) (content : String) (r : UniversalRule)
    (h : parse_rule_file yaml stem content = .ok r) :
    (¬ ddd.isPrefixOf content.data → r.content = content) ∧
    (ddd.isPrefixOf content.data →
      r.content.data = trimStart (((splitn3 ddd content.data).get? 2).getD [])) := by
  by_cases hp : ddd.isPrefixOf content.data
  · simp only [parse_rule_file, hp, if_true] at h
    refine ⟨fun hnp => absurd hp hnp, fun _ => ?_⟩
    revert h
    split
    · intro h; exact absurd h (by simp)
    · split
      · intro h; exact absurd h (by simp)
      · intro h
        rw [Except.ok.injEq] at h
        rw [← h]
  · simp only [parse_rule_file, hp, if_false] at h
    refine ⟨fun _ => ?_, fun hyes => absurd hyes hp⟩
    revert h
    split
    · intro h; exact absurd h (by simp)
    · split
      · intro h; exact absurd h (by simp)
      · intro h
        rw [Except.ok.injEq] at h
        rw [← h]
        simp

/-- Witness for C9 (amended) at a concrete header-free file. -/
theorem parse_body_raw_witness :
    (¬ ddd.isPrefixOf ("no header" : String).data →
      (⟨"n", ⟨none, none, false, none⟩, "no header"⟩ : UniversalRule).content = "no header") ∧
    (ddd.isPrefixOf ("no header" : String).data →
      (⟨"n", ⟨none, none, false, none⟩, "no header"⟩ : UniversalRule).content.data
        = trimStart (((splitn3 ddd ("no header" : String).data).get? 2).getD [])) :=
  parse_body_raw yamlStub (some "n") "no header"
    ⟨"n", ⟨none, none, false, none⟩, "no header"⟩ rfl

/-- C9 counterexample: on the file `"---\n---\n  body"` the parser
returns the body `"body"`, while the raw text following the metadata
header is `"\n  body"` — the body is leading-whitespace-stripped, so it
is not the raw text following the header. -/
theorem parse_body_raw_counterexample :
    parse_rule_file yamlStub (some "r") "---\n---\n  body"
      = Except.ok ⟨"r", ⟨none, none, false, none⟩, "body"⟩ ∧
    ((splitn3 ddd ("---\n---\n  body" : String).data).get? 2).getD []
      = ("\n  body" : String).data ∧
    ("body" : String).data ≠ ("\n  body" : String).data := by
  refine ⟨rfl, by decide, by decide⟩

/-- C10: a file starting with the delimiter and containing no second
delimiter is parsed with the whole trimmed remainder as the metadata
block and an empty body; parsing succeeds with default metadata when
that remainder trims to nothing, and otherwise succeeds exactly when
the YAML deserializer accepts the remainder. -/
theorem parse_no_second_delimiter
    (yaml : String → Except String UniversalRuleFrontmatter)
    (n : String) (tail : List Char) (content : String)
    (hc : content.data = ddd ++ tail)
    (hno : ¬ ddd <:+: tail) :
    parse_rule_file yaml (some n) content
      = (if trim tail = [] then Except.ok ⟨n, default, ""⟩
         else match yaml (String.mk (trim tail)) with
           | .error e => .error e
           | .ok fm => .ok ⟨n, fm, ""⟩) := by
  have h2 : splitOnce ddd tail = none := splitOnce_eq_none (by simp [ddd]) hno
  have hsplit : splitn3 ddd content.data = [[], tail] := by
    rw [hc, splitn3, splitOnce_ddd_append]
    simp only [h2]
  have hp : ddd.isPrefixOf content.data := by
    rw [hc]; exact List.isPrefixOf_iff_prefix.mpr ⟨tail, rfl⟩
  simp only [parse_rule_file, hp, if_true, hsplit]
  simp only [List.get?, Option.getD]
  by_cases ht : trim tail = []
  · simp [ht, trimStart]
  · rw [if_neg ht, if_neg ht]
    cases hy : yaml (String.mk (trim tail)) with
    | error e => simp [hy]
    | ok fm => simp [hy, trimStart]

/-- Witness for C10 at a concrete one-delimiter file. -/
theorem parse_no_second_delimiter_witness :
    parse_rule_file yamlStub (some "n") "---\nabc"
      = (if trim ("\nabc" : String).data = [] then Except.ok ⟨"n", default, ""⟩
         else match yamlStub (String.mk (trim ("\nabc" : String).data)) with
           | .error e => .error e
           | .ok fm => .ok ⟨"n", fm, ""⟩) :=
  parse_no_second_delimiter yamlStub "n" ("\nabc" : String).data "---\nabc"
    (by decide) (by decide)

/-! ## Theorems: ignore-file merger — text-level lemmas -/

theorem linesOf_newline_append (line rest : List Char) (h : '\n' ∉ line) :
    linesOf (line ++ '\n' :: rest) = line :: linesOf rest := by
  induction line with
  | nil => simp [linesOf]
  | cons c cs ih =>
    have hc : c ≠ '\n' := fun hq => h (hq ▸ List.mem_cons_self c cs)
    have hcs : '\n' ∉ cs := fun hm => h (List.mem_cons_of_mem c hm)
    rw [List.cons_append, linesOf, if_neg hc, ih hcs]

theorem linesOf_unlines_append (ls : List (List Char)) (rest : List Char)
    (h : ∀ l ∈ ls, '\n' ∉ l) :
    linesOf (unlines ls ++ rest) = ls ++ linesOf rest := by
  induction ls with
  | nil => simp [unlines]
  | cons l ls ih =>
    have h1 : '\n' ∉ l := h l (by simp)
    have h2 : ∀ x ∈ ls, '\n' ∉ x := fun x hx => h x (by simp [hx])
    have hsh : unlines (l :: ls) ++ rest = l ++ '\n' :: (unlines ls ++ rest) := by
      simp [unlines, List.append_assoc]
    rw [hsh, linesOf_newline_append _ _ h1, ih h2]
    simp

theorem linesOf_unlines (ls : List (List Char)) (h : ∀ l ∈ ls, '\n' ∉ l) :
    linesOf (unlines ls) = ls := by
  have := linesOf_unlines_append ls [] h
  simpa [linesOf] using this

theorem not_mem_newline_linesOf (l : List Char) :
    ∀ p ∈ linesOf l, '\n' ∉ p := by
  induction l with
  | nil => simp [linesOf]
  | cons c t ih =>
    intro p hp
    by_cases hc : c = '\n'
    · subst hc
      simp only [linesOf, reduceIte, List.mem_cons] at hp
      rcases hp with hpe | hp
      · subst hpe; simp
      · exact ih p hp
    · cases hl : linesOf t with
      | nil =>
        simp only [linesOf, if_neg hc, hl, List.mem_singleton] at hp
        subst hp
        simp [Ne.symm hc]
      | cons hd r =>
        simp only [linesOf, if_neg hc, hl, List.mem_cons] at hp
        rcases hp with rfl | hp
        · intro hmem
          rw [List.mem_cons] at hmem
          rcases hmem with heq | hmem
          · exact hc heq.symm
          · exact ih hd (by rw [hl]; exact List.mem_cons_self hd r) hmem
        · exact ih p (by rw [hl]; exact List.mem_cons_of_mem hd hp)

theorem unlines_append (a b : List (List Char)) :
    unlines (a ++ b) = unlines a ++ unlines b := by simp [unlines]

theorem unlines_getLast (ls : List (List Char)) (h : unlines ls ≠ []) :
    (unlines ls).getLast? = some '\n' := by
  induction ls with
  | nil => simp [unlines] at h
  | cons l ls ih =>
    have hsh : unlines (l :: ls) = (l ++ ['\n']) ++ unlines ls := by
      simp [unlines]
    rcases eq_or_ne (unlines ls) [] with h2 | h2
    · rw [hsh, h2, List.append_nil, List.getLast?_concat]
    · rw [hsh, List.getLast?_append_of_ne_nil _ h2, ih h2]

theorem dropRightWhile_concat_pos (p : Char → Bool) (l : List Char) (c : Char)
    (h : p c) : dropRightWhile p (l ++ [c]) = dropRightWhile p l := by
  simp [dropRightWhile, List.dropWhile_cons, h]

theorem dropWhile_head_false (p : Char → Bool) :
    ∀ (l : List Char) (a : Char) (t : List Char), l.dropWhile p = a :: t → p a = false := by
  intro l
  induction l with
  | nil => intro a t h; simp at h
  | cons c cs ih =>
    intro a t h
    by_cases hc : p c
    · rw [List.dropWhile_cons, if_pos hc] at h
      exact ih a t h
    · rw [List.dropWhile_cons, if_neg hc] at h
      rw [List.cons.injEq] at h
      rw [← h.1]
      exact Bool.eq_false_iff.mpr hc

theorem dropRightWhile_eq_self (p : Char → Bool) (l : List Char) (c : Char)
    (h : l.getLast? = some c) (hc : ¬ p c) : dropRightWhile p l = l := by
  rw [dropRightWhile]
  rw [← List.head?_reverse] at h
  cases hrev : l.reverse with
  | nil => rw [hrev] at h; simp at h
  | cons a t =>
    rw [hrev] at h
    simp only [List.head?_cons, Option.some.injEq] at h
    subst h
    rw [List.dropWhile_cons, if_neg hc, ← hrev, List.reverse_reverse]

theorem dropRightWhile_getLast_false (p : Char → Bool) (l : List Char) (c : Char)
    (h : (dropRightWhile p l).getLast? = some c) : p c = false := by
  rw [dropRightWhile, ← List.head?_reverse, List.reverse_reverse] at h
  cases hd : l.reverse.dropWhile p with
  | nil => rw [hd] at h; simp at h
  | cons a t =>
    rw [hd] at h
    simp only [List.head?_cons, Option.some.injEq] at h
    subst h
    exact dropWhile_head_false p l.reverse a t hd

/-- Remove trailing empty lines. -/
def dropTrailingEmpties (ls : List (List Char)) : List (List Char) :=
  (ls.reverse.dropWhile (· = [])).reverse

theorem dte_concat_nil (ls : List (List Char)) :
    dropTrailingEmpties (ls ++ [[]]) = dropTrailingEmpties ls := by
  simp [dropTrailingEmpties, List.dropWhile_cons]

theorem dte_concat_ne_nil (ls : List (List Char)) (l : List Char) (h : l ≠ []) :
    dropTrailingEmpties (ls ++ [l]) = ls ++ [l] := by
  simp [dropTrailingEmpties, List.dropWhile_cons, h]

theorem dte_mem (ls : List (List Char)) (l : List Char)
    (h : l ∈ dropTrailingEmpties ls) : l ∈ ls := by
  rw [dropTrailingEmpties, List.mem_reverse] at h
  exact List.mem_reverse.mp ((List.dropWhile_sublist _).mem h)

theorem dte_cons_nil (post : List (List Char)) :
    dropTrailingEmpties ([] :: post)
      = if dropTrailingEmpties post = [] then []
        else [] :: dropTrailingEmpties post := by
  rw [dropTrailingEmpties, List.reverse_cons, List.dropWhile_append]
  rcases hd : post.reverse.dropWhile (· = ([] : List Char)) with _ | ⟨a, t⟩
  · have hdte : dropTrailingEmpties post = [] := by
      rw [dropTrailingEmpties, hd]; rfl
    rw [hdte]
    simp
  · have hdte : dropTrailingEmpties post = (a :: t).reverse := by
      rw [dropTrailingEmpties, hd]
    have hne : dropTrailingEmpties post ≠ [] := by
      rw [hdte]; simp
    rw [if_neg hne, hdte]
    simp

theorem ensure_newline_nop (ls : List (List Char)) :
    (if unlines ls ≠ [] ∧ (unlines ls).getLast? ≠ some '\n' then ['\n'] else [])
      = ([] : List Char) := by
  rcases eq_or_ne (unlines ls) [] with h | h
  · rw [if_neg]; rintro ⟨hne, _⟩; exact hne h
  · rw [if_neg]; rintro ⟨_, hlast⟩; exact hlast (unlines_getLast ls h)

theorem written_eq (Y : List Char) (M : List (List Char)) (c : Char)
    (hY : Y.getLast? = some c) (hc : c ≠ '\n')
    (hM : ∀ l ∈ M, '\n' ∉ l) :
    dropRightWhile (· = '\n') (Y ++ unlines M) ++ ['\n']
      = Y ++ unlines (dropTrailingEmpties M)
          ++ (if dropTrailingEmpties M = [] then ['\n'] else []) := by
  induction M using List.reverseRecOn with
  | nil =>
    have h0 : unlines ([] : List (List Char)) = [] := rfl
    rw [h0, List.append_nil, dropRightWhile_eq_self _ _ c hY (by simp [hc])]
    simp [dropTrailingEmpties, h0]
  | append_singleton M0 lst ih =>
    have hM0 : ∀ l ∈ M0, '\n' ∉ l := fun l hl => hM l (List.mem_append_left _ hl)
    by_cases hlst : lst = ([] : List Char)
    · subst hlst
      have hsh : Y ++ unlines (M0 ++ [[]]) = (Y ++ unlines M0) ++ ['\n'] := by
        rw [unlines_append]
        simp [unlines, List.append_assoc]
      rw [hsh, dropRightWhile_concat_pos _ _ _ (by simp), dte_concat_nil, ih hM0]
    · have hlnl : '\n' ∉ lst := hM lst (List.mem_append_right _ (by simp))
      obtain ⟨d, hd⟩ : ∃ d, lst.getLast? = some d :=
        ⟨lst.getLast hlst, List.getLast?_eq_getLast lst hlst⟩
      have hdnl : d ≠ '\n' := fun hq => hlnl (hq ▸ List.mem_of_mem_getLast? hd)
      have hsh : Y ++ unlines (M0 ++ [lst])
          = ((Y ++ unlines M0) ++ lst) ++ ['\n'] := by
        rw [unlines_append]
        simp [unlines, List.append_assoc]
      have hlast : ((Y ++ unlines M0) ++ lst).getLast? = some d := by
        rw [List.getLast?_append_of_ne_nil _ hlst, hd]
      rw [hsh, dropRightWhile_concat_pos _ _ _ (by simp),
        dropRightWhile_eq_self _ _ d hlast (by simp [hdnl]),
        dte_concat_ne_nil _ _ hlst, if_neg (by simp)]
      rw [unlines_append]
      simp [unlines, List.append_assoc]

theorem rebuildContent_eq (st : GiState) (np : List (List Char)) :
    rebuildContent st np
      = (unlines (st.pre ++ [GITIGNORE_HEADER] ++ st.sec ++ writtenPats st np)
          ++ GITIGNORE_FOOTER) ++ unlines ([] :: st.post) := by
  rw [rebuildContent]
  rw [ensure_newline_nop]
  rw [unlines_append, unlines_append, unlines_append]
  simp [unlines, List.append_assoc]

theorem patterns_no_newline (agent : AgentName) :
    ∀ p ∈ patternsToAdd agent, '\n' ∉ p := by
  cases agent <;> decide

theorem written_lines (st : GiState) (np : List (List Char))
    (hpre : ∀ l ∈ st.pre, '\n' ∉ l) (hsec : ∀ l ∈ st.sec, '\n' ∉ l)
    (hpost : ∀ l ∈ st.post, '\n' ∉ l) (hnp : ∀ p ∈ np, '\n' ∉ p) :
    linesOf (dropRightWhile (· = '\n') (rebuildContent st np) ++ ['\n'])
      = st.pre ++ [GITIGNORE_HEADER] ++ st.sec ++ writtenPats st np
        ++ [GITIGNORE_FOOTER] ++ dropTrailingEmpties st.post := by
  have hwp : ∀ p ∈ writtenPats st np, '\n' ∉ p := fun p hp =>
    hnp p (List.mem_of_mem_filter hp)
  have hQnl : ∀ l ∈ st.pre ++ [GITIGNORE_HEADER] ++ st.sec ++ writtenPats st np,
      '\n' ∉ l := by
    intro l hl
    rcases List.mem_append.mp hl with hl | hl
    · rcases List.mem_append.mp hl with hl | hl
      · rcases List.mem_append.mp hl with hl | hl
        · exact hpre l hl
        · rw [List.mem_singleton] at hl
          subst hl
          decide
      · exact hsec l hl
    · exact hwp l hl
  have hY : (unlines (st.pre ++ [GITIGNORE_HEADER] ++ st.sec ++ writtenPats st np)
      ++ GITIGNORE_FOOTER).getLast? = some 'n' := by
    rw [List.getLast?_append_of_ne_nil _ (by decide)]
    decide
  have hM : ∀ l ∈ ([] :: st.post), '\n' ∉ l := by
    intro l hl
    rcases List.mem_cons.mp hl with rfl | hl
    · simp
    · exact hpost l hl
  rw [rebuildContent_eq, written_eq _ _ 'n' hY (by decide) hM]
  rcases eq_or_ne (dropTrailingEmpties st.post) [] with hdte | hdte
  · rw [dte_cons_nil, if_pos hdte, if_pos rfl, hdte]
    have h0 : unlines ([] : List (List Char)) = [] := rfl
    rw [h0, List.append_nil, List.append_nil, List.append_assoc]
    rw [linesOf_unlines_append _ _ hQnl]
    rw [show GITIGNORE_FOOTER ++ ['\n'] = GITIGNORE_FOOTER ++ '\n' :: [] from rfl,
      linesOf_newline_append _ _ (by decide)]
    simp [linesOf, List.append_assoc]
  · rw [dte_cons_nil, if_neg hdte, if_neg (by simp)]
    have hdnl : ∀ l ∈ dropTrailingEmpties st.post, '\n' ∉ l := fun l hl =>
      hpost l (dte_mem _ _ hl)
    rw [List.append_nil]
    have hsh : unlines ([] :: dropTrailingEmpties st.post)
        = '\n' :: unlines (dropTrailingEmpties st.post) := by
      simp [unlines]
    rw [hsh, List.append_assoc]
    rw [linesOf_unlines_append _ _ hQnl]
    rw [show GITIGNORE_FOOTER ++ '\n' :: unlines (dropTrailingEmpties st.post)
        = GITIGNORE_FOOTER ++ '\n' :: unlines (dropTrailingEmpties st.post) from rfl]
    rw [linesOf_newline_append _ _ (by decide)]
    rw [linesOf_unlines _ hdnl]
    simp [List.append_assoc]

/-! ## Theorems: ignore-file merger — parse-phase lemmas -/

theorem giStep_header (st : GiState) (l : List Char)
    (h : trim l = GITIGNORE_HEADER) :
    giStep st l = { st with inSec := true, headerFound := true } := by
  rw [giStep, if_pos h]

theorem giStep_footer (st : GiState) (l : List Char)
    (hf : trim l = GITIGNORE_FOOTER) (hnh : trim l ≠ GITIGNORE_HEADER)
    (hin : st.inSec = true) :
    giStep st l = { st with inSec := false } := by
  rw [giStep, if_neg hnh, if_pos ⟨hf, hin⟩]

theorem giStep_pre (st : GiState) (l : List Char)
    (hnh : trim l ≠ GITIGNORE_HEADER) (hhf : st.headerFound = false)
    (hin : st.inSec = false) :
    giStep st l
      = { st with pre := st.pre ++ [l], existing := st.existing ++ [trim l] } := by
  rw [giStep, if_neg hnh, if_neg, if_neg, if_pos hhf]
  · rintro ⟨hh, _⟩
    rw [hhf] at hh
    exact Bool.noConfusion hh
  · rintro ⟨_, hsec⟩
    rw [hin] at hsec
    exact Bool.noConfusion hsec

theorem giStep_sec (st : GiState) (l : List Char)
    (hnh : trim l ≠ GITIGNORE_HEADER) (hnf : trim l ≠ GITIGNORE_FOOTER)
    (hhf : st.headerFound = true) (hin : st.inSec = true) :
    giStep st l
      = { st with sec := st.sec ++ [l], existing := st.existing ++ [trim l] } := by
  rw [giStep, if_neg hnh, if_neg, if_pos ⟨hhf, hin⟩]
  rintro ⟨hf, _⟩
  exact hnf hf

theorem giStep_post (st : GiState) (l : List Char)
    (hnh : trim l ≠ GITIGNORE_HEADER) (hhf : st.headerFound = true)
    (hin : st.inSec = false) :
    giStep st l = { st with post := st.post ++ [l] } := by
  rw [giStep, if_neg hnh, if_neg, if_neg, if_neg]
  · rw [hhf]
    simp
  · rintro ⟨hh, hsec⟩
    rw [hin] at hsec
    exact Bool.noConfusion hsec
  · rintro ⟨_, hsec⟩
    rw [hin] at hsec
    exact Bool.noConfusion hsec

theorem giFold_pre (ls : List (List Char)) :
    ∀ st : GiState, st.headerFound = false → st.inSec = false →
      (∀ l ∈ ls, trim l ≠ GITIGNORE_HEADER) →
      List.foldl giStep st ls
        = { st with pre := st.pre ++ ls,
                    existing := st.existing ++ ls.map trim } := by
  induction ls with
  | nil => intro st _ _ _; simp
  | cons l ls ih =>
    intro st h1 h2 hl
    rw [List.foldl_cons, giStep_pre st l (hl l (by simp)) h1 h2]
    have hih := ih { st with pre := st.pre ++ [l], existing := st.existing ++ [trim l] } h1 h2 (fun x hx => hl x (by simp [hx]))
    rw [hih]
    simp

theorem giFold_sec (ls : List (List Char)) :
    ∀ st : GiState, st.headerFound = true → st.inSec = true →
      (∀ l ∈ ls, trim l ≠ GITIGNORE_HEADER ∧ trim l ≠ GITIGNORE_FOOTER) →
      List.foldl giStep st ls
        = { st with sec := st.sec ++ ls,
                    existing := st.existing ++ ls.map trim } := by
  induction ls with
  | nil => intro st _ _ _; simp
  | cons l ls ih =>
    intro st h1 h2 hl
    rw [List.foldl_cons,
      giStep_sec st l (hl l (by simp)).1 (hl l (by simp)).2 h1 h2]
    have hih := ih { st with sec := st.sec ++ [l], existing := st.existing ++ [trim l] } h1 h2 (fun x hx => hl x (by simp [hx]))
    rw [hih]
    simp

theorem giFold_post (ls : List (List Char)) :
    ∀ st : GiState, st.headerFound = true → st.inSec = false →
      (∀ l ∈ ls, trim l ≠ GITIGNORE_HEADER) →
      List.foldl giStep st ls = { st with post := st.post ++ ls } := by
  induction ls with
  | nil => intro st _ _ _; simp
  | cons l ls ih =>
    intro st h1 h2 hl
    rw [List.foldl_cons, giStep_post st l (hl l (by simp)) h1 h2]
    have hih := ih { st with post := st.post ++ [l] } h1 h2
      (fun x hx => hl x (by simp [hx]))
    rw [hih]
    simp

/-- Invariant of the reader-loop state: no accumulated `pre`/`sec` line
trims to the header, no `sec` line trims to the footer, no `post` line
trims to the header, the trimmed-line set is exactly the trims of
`pre ∪ sec`, and no accumulated line contains a newline. -/
structure GiInv (st : GiState) : Prop where
  pre_nh : ∀ l ∈ st.pre, trim l ≠ GITIGNORE_HEADER
  sec_nh : ∀ l ∈ st.sec, trim l ≠ GITIGNORE_HEADER ∧ trim l ≠ GITIGNORE_FOOTER
  post_nh : ∀ l ∈ st.post, trim l ≠ GITIGNORE_HEADER
  existing_iff : ∀ x, x ∈ st.existing ↔ ∃ l, (l ∈ st.pre ∨ l ∈ st.sec) ∧ trim l = x
  pre_nl : ∀ l ∈ st.pre, '\n' ∉ l
  sec_nl : ∀ l ∈ st.sec, '\n' ∉ l
  post_nl : ∀ l ∈ st.post, '\n' ∉ l

theorem giInv_init : GiInv giInit := by
  constructor <;> simp [giInit]

theorem giInv_step (st : GiState) (l : List Char) (hnl : '\n' ∉ l)
    (h : GiInv st) : GiInv (giStep st l) := by
  rw [giStep]
  split_ifs with h1 h2 h3 h4
  · exact ⟨h.pre_nh, h.sec_nh, h.post_nh, h.existing_iff, h.pre_nl, h.sec_nl, h.post_nl⟩
  · exact ⟨h.pre_nh, h.sec_nh, h.post_nh, h.existing_iff, h.pre_nl, h.sec_nl, h.post_nl⟩
  · -- append to section
    refine ⟨h.pre_nh, ?_, h.post_nh, ?_, h.pre_nl, ?_, h.post_nl⟩
    · intro x hx
      rcases List.mem_append.mp hx with hx | hx
      · exact h.sec_nh x hx
      · rw [List.mem_singleton] at hx
        subst hx
        refine ⟨h1, fun hf => h2 ⟨hf, h3.2⟩⟩
    · intro x
      rw [List.mem_append, List.mem_singleton, h.existing_iff x]
      constructor
      · rintro (⟨l2, hl2, rfl⟩ | rfl)
        · rcases hl2 with hp | hs
          · exact ⟨l2, Or.inl hp, rfl⟩
          · exact ⟨l2, Or.inr (List.mem_append_left _ hs), rfl⟩
        · exact ⟨l, Or.inr (List.mem_append_right _ (by simp)), rfl⟩
      · rintro ⟨l2, hl2, rfl⟩
        rcases hl2 with hp | hs
        · exact Or.inl ⟨l2, Or.inl hp, rfl⟩
        · rcases List.mem_append.mp hs with hs | hs
          · exact Or.inl ⟨l2, Or.inr hs, rfl⟩
          · rw [List.mem_singleton] at hs
            subst hs
            exact Or.inr rfl
    · intro x hx
      rcases List.mem_append.mp hx with hx | hx
      · exact h.sec_nl x hx
      · rw [List.mem_singleton] at hx
        subst hx
        exact hnl
  · -- append to pre
    refine ⟨?_, h.sec_nh, h.post_nh, ?_, ?_, h.sec_nl, h.post_nl⟩
    · intro x hx
      rcases List.mem_append.mp hx with hx | hx
      · exact h.pre_nh x hx
      · rw [List.mem_singleton] at hx
        subst hx
        exact h1
    · intro x
      rw [List.mem_append, List.mem_singleton, h.existing_iff x]
      constructor
      · rintro (⟨l2, hl2, rfl⟩ | rfl)
        · rcases hl2 with hp | hs
          · exact ⟨l2, Or.inl (List.mem_append_left _ hp), rfl⟩
          · exact ⟨l2, Or.inr hs, rfl⟩
        · exact ⟨l, Or.inl (List.mem_append_right _ (by simp)), rfl⟩
      · rintro ⟨l2, hl2, rfl⟩
        rcases hl2 with hp | hs
        · rcases List.mem_append.mp hp with hp | hp
          · exact Or.inl ⟨l2, Or.inl hp, rfl⟩
          · rw [List.mem_singleton] at hp
            subst hp
            exact Or.inr rfl
        · exact Or.inl ⟨l2, Or.inr hs, rfl⟩
    · intro x hx
      rcases List.mem_append.mp hx with hx | hx
      · exact h.pre_nl x hx
      · rw [List.mem_singleton] at hx
        subst hx
        exact hnl
  · -- append to post
    refine ⟨h.pre_nh, h.sec_nh, ?_, h.existing_iff, h.pre_nl, h.sec_nl, ?_⟩
    · intro x hx
      rcases List.mem_append.mp hx with hx | hx
      · exact h.post_nh x hx
      · rw [List.mem_singleton] at hx
        subst hx
        exact h1
    · intro x hx
      rcases List.mem_append.mp hx with hx | hx
      · exact h.post_nl x hx
      · rw [List.mem_singleton] at hx
        subst hx
        exact hnl

theorem giInv_fold (ls : List (List Char)) :
    ∀ st : GiState, (∀ l ∈ ls, '\n' ∉ l) → GiInv st →
      GiInv (List.foldl giStep st ls) := by
  induction ls with
  | nil => intro st _ h; exact h
  | cons l ls ih =>
    intro st hnl h
    rw [List.foldl_cons]
    exact ih _ (fun x hx => hnl x (by simp [hx]))
      (giInv_step st l (hnl l (by simp)) h)

theorem giInv_stateOf (existing : Option String) : GiInv (giStateOf existing) := by
  cases existing with
  | none => exact giInv_init
  | some c =>
    exact giInv_fold _ giInit (not_mem_newline_linesOf c.data) giInv_init


/-! ## Theorems: ignore-file merger — second-run analysis -/

theorem patterns_trim_ne (agent : AgentName) :
    ∀ p ∈ patternsToAdd agent,
      trim p ≠ GITIGNORE_HEADER ∧ trim p ≠ GITIGNORE_FOOTER := by
  cases agent <;> decide

theorem giParse_stream (st : GiState) (wp : List (List Char)) (h : GiInv st)
    (hwpt : ∀ p ∈ wp, trim p ≠ GITIGNORE_HEADER ∧ trim p ≠ GITIGNORE_FOOTER) :
    giParse (st.pre ++ [GITIGNORE_HEADER] ++ st.sec ++ wp ++ [GITIGNORE_FOOTER]
        ++ dropTrailingEmpties st.post)
      = ⟨st.pre, st.sec ++ wp, dropTrailingEmpties st.post,
         st.pre.map trim ++ st.sec.map trim ++ wp.map trim, false, true⟩ := by
  have e1 : List.foldl giStep giInit st.pre
      = ⟨st.pre, [], [], st.pre.map trim, false, false⟩ := by
    rw [giFold_pre st.pre giInit rfl rfl h.pre_nh]
    simp [giInit]
  have e2 : giStep (⟨st.pre, [], [], st.pre.map trim, false, false⟩ : GiState)
        GITIGNORE_HEADER
      = ⟨st.pre, [], [], st.pre.map trim, true, true⟩ := by
    rw [giStep_header _ _ (by decide)]
  have e3 : List.foldl giStep
        (⟨st.pre, [], [], st.pre.map trim, true, true⟩ : GiState) st.sec
      = ⟨st.pre, st.sec, [], st.pre.map trim ++ st.sec.map trim, true, true⟩ := by
    rw [giFold_sec st.sec ⟨st.pre, [], [], st.pre.map trim, true, true⟩ rfl rfl h.sec_nh]
    simp
  have e4 : List.foldl giStep
        (⟨st.pre, st.sec, [], st.pre.map trim ++ st.sec.map trim, true, true⟩ : GiState) wp
      = ⟨st.pre, st.sec ++ wp, [],
         st.pre.map trim ++ st.sec.map trim ++ wp.map trim, true, true⟩ := by
    rw [giFold_sec wp
      ⟨st.pre, st.sec, [], st.pre.map trim ++ st.sec.map trim, true, true⟩ rfl rfl hwpt]
  have e5 : giStep (⟨st.pre, st.sec ++ wp, [],
        st.pre.map trim ++ st.sec.map trim ++ wp.map trim, true, true⟩ : GiState)
        GITIGNORE_FOOTER
      = ⟨st.pre, st.sec ++ wp, [],
         st.pre.map trim ++ st.sec.map trim ++ wp.map trim, false, true⟩ := by
    rw [giStep_footer _ _ (by decide) (by decide) rfl]
  have e6 : List.foldl giStep (⟨st.pre, st.sec ++ wp, [],
        st.pre.map trim ++ st.sec.map trim ++ wp.map trim, false, true⟩ : GiState)
        (dropTrailingEmpties st.post)
      = ⟨st.pre, st.sec ++ wp, dropTrailingEmpties st.post,
         st.pre.map trim ++ st.sec.map trim ++ wp.map trim, false, true⟩ := by
    rw [giFold_post (dropTrailingEmpties st.post)
      ⟨st.pre, st.sec ++ wp, [],
       st.pre.map trim ++ st.sec.map trim ++ wp.map trim, false, true⟩ rfl rfl
      (fun l hl => h.post_nh l (dte_mem _ _ hl))]
    simp
  rw [giParse, List.foldl_append, List.foldl_append, List.foldl_append,
    List.foldl_append, List.foldl_append, e1]
  simp only [List.foldl_cons, List.foldl_nil]
  rw [e2, e3, e4, e5, e6]

theorem mem_variations_self (p : List Char) : p ∈ variations p := by
  simp [variations]

theorem isPresent_mono (E1 E2 : List (List Char)) (p : List Char)
    (hsub : ∀ x ∈ E1, x ∈ E2) (h : isPresent E1 p = true) :
    isPresent E2 p = true := by
  rw [isPresent, List.any_eq_true] at h ⊢
  obtain ⟨v, hv, hmem⟩ := h
  rw [decide_eq_true_eq] at hmem
  exact ⟨v, hv, by rw [decide_eq_true_eq]; exact hsub _ hmem⟩

theorem present_after (st : GiState) (agent : AgentName) (h : GiInv st) :
    ∀ p ∈ patternsToAdd agent,
      isPresent (st.pre.map trim ++ st.sec.map trim
        ++ (writtenPats st (finalNewPatterns agent st)).map trim) p = true := by
  intro p hp
  by_cases hpres : isPresent st.existing p = true
  · refine isPresent_mono st.existing _ p ?_ hpres
    intro x hx
    obtain ⟨l, hl, rfl⟩ := (h.existing_iff x).mp hx
    rcases hl with hl | hl
    · exact List.mem_append_left _ (List.mem_append_left _ (List.mem_map_of_mem trim hl))
    · exact List.mem_append_left _ (List.mem_append_right _ (List.mem_map_of_mem trim hl))
  · have hnp : p ∈ finalNewPatterns agent st := by
      rw [finalNewPatterns, List.mem_filter]
      exact ⟨hp, by simp [hpres]⟩
    have hnotrim : trim p ∉ st.existing := by
      intro hmem
      apply hpres
      rw [isPresent, List.any_eq_true]
      exact ⟨p, mem_variations_self p, by rw [decide_eq_true_eq]; exact hmem⟩
    have hwp : p ∈ writtenPats st (finalNewPatterns agent st) := by
      rw [writtenPats, List.mem_filter]
      refine ⟨hnp, ?_⟩
      rw [decide_eq_true_eq]
      constructor
      · intro hany
        rw [linesOf_unlines _ h.sec_nl, List.any_eq_true] at hany
        obtain ⟨l, hl, heq⟩ := hany
        rw [decide_eq_true_eq] at heq
        exact hnotrim ((h.existing_iff (trim p)).mpr ⟨l, Or.inr hl, heq⟩)
      · intro hany
        rw [linesOf_unlines _ h.pre_nl, List.any_eq_true] at hany
        obtain ⟨l, hl, heq⟩ := hany
        rw [decide_eq_true_eq] at heq
        exact hnotrim ((h.existing_iff (trim p)).mpr ⟨l, Or.inl hl, heq⟩)
    rw [isPresent, List.any_eq_true]
    refine ⟨p, mem_variations_self p, ?_⟩
    rw [decide_eq_true_eq]
    exact List.mem_append_right _ (List.mem_map_of_mem trim hwp)

/-- From any parse state satisfying the invariant, rewriting the file
and then running the merge again is a no-op. -/
theorem giDecide_rewritten_none (st : GiState) (agent : AgentName) (h : GiInv st) :
    giDecide agent
      (giParse (linesOf (dropRightWhile (· = '\n')
        (rebuildContent st (finalNewPatterns agent st)) ++ ['\n']))) = none := by
  have hnpnl : ∀ p ∈ finalNewPatterns agent st, '\n' ∉ p := fun p hp =>
    patterns_no_newline agent p (List.mem_of_mem_filter hp)
  have hwpt : ∀ p ∈ writtenPats st (finalNewPatterns agent st),
      trim p ≠ GITIGNORE_HEADER ∧ trim p ≠ GITIGNORE_FOOTER := fun p hp =>
    patterns_trim_ne agent p
      (List.mem_of_mem_filter (List.mem_of_mem_filter hp))
  rw [written_lines st _ h.pre_nl h.sec_nl h.post_nl hnpnl]
  rw [giParse_stream st _ h hwpt]
  rw [giDecide]
  rw [if_neg]
  push_neg
  refine ⟨?_, by simp⟩
  rw [finalNewPatterns, List.filter_eq_nil_iff]
  intro p hp
  rw [decide_eq_true_eq]
  intro hcon
  exact hcon (present_after st agent h p hp)


/-! ## Claim theorems: ignore-file merger -/

theorem giDecide_some_eq (agent : AgentName) (st : GiState) (a : List Char)
    (h : giDecide agent st = some a) :
    a = dropRightWhile (· = '\n')
        (rebuildContent st (finalNewPatterns agent st)) ++ ['\n'] := by
  rw [giDecide] at h
  by_cases hc : finalNewPatterns agent st ≠ [] ∨ st.headerFound = false
  · rw [if_pos hc, Option.some.injEq] at h
    exact h.symm
  · rw [if_neg hc] at h
    exact absurd h (by simp)

/-- C1: the ignore-file merge is idempotent: for every starting file
state (absent file included) and target format, after one run of
`update_gitignore` a second run with the same format performs no write
(`none`), so the file content stays byte-identical: the no-op
short-circuit fires because the managed header is found and no pattern
is new. -/
theorem gitignore_idempotent (existing : Option String) (agent : AgentName) :
    update_gitignore (afterRun existing agent) agent = none := by
  rw [afterRun]
  cases hrun : update_gitignore existing agent with
  | none => exact hrun
  | some w =>
    rw [update_gitignore, Option.map_eq_some'] at hrun
    obtain ⟨a, ha, rfl⟩ := hrun
    have hdata : (String.mk a).data = a := rfl
    rw [update_gitignore]
    simp only [giStateOf, hdata]
    rw [giDecide_some_eq agent _ a ha,
      giDecide_rewritten_none (giStateOf existing) agent (giInv_stateOf existing)]
    rfl

theorem written_formula (st : GiState) (np : List (List Char))
    (hpost : ∀ l ∈ st.post, '\n' ∉ l) :
    dropRightWhile (· = '\n') (rebuildContent st np) ++ ['\n']
      = unlines (st.pre ++ [GITIGNORE_HEADER] ++ st.sec ++ writtenPats st np)
        ++ GITIGNORE_FOOTER ++ ['\n']
        ++ unlines (dropTrailingEmpties st.post) := by
  have hY : (unlines (st.pre ++ [GITIGNORE_HEADER] ++ st.sec ++ writtenPats st np)
      ++ GITIGNORE_FOOTER).getLast? = some 'n' := by
    rw [List.getLast?_append_of_ne_nil _ (by decide)]
    decide
  have hM : ∀ l ∈ ([] :: st.post), '\n' ∉ l := by
    intro l hl
    rcases List.mem_cons.mp hl with rfl | hl
    · simp
    · exact hpost l hl
  rw [rebuildContent_eq, written_eq _ _ 'n' hY (by decide) hM]
  rcases eq_or_ne (dropTrailingEmpties st.post) [] with hdte | hdte
  · rw [dte_cons_nil, if_pos hdte, if_pos rfl, hdte]
    have h0 : unlines ([] : List (List Char)) = [] := rfl
    rw [h0]
    simp [List.append_assoc]
  · rw [dte_cons_nil, if_neg hdte, if_neg (by simp)]
    have hsh : unlines ([] :: dropTrailingEmpties st.post)
        = '\n' :: unlines (dropTrailingEmpties st.post) := by
      simp [unlines]
    rw [hsh]
    simp [List.append_assoc]

/-- C3: when `update_gitignore` rewrites the file, the written bytes
are exactly: the `pre` lines, the start marker line, the original
section lines verbatim, the non-duplicate new patterns (one per line),
the end marker line, then the `post` lines with trailing blank lines
trimmed — and the whole file ends in exactly one trailing newline. -/
theorem gitignore_frame (existing : Option String) (agent : AgentName) (w : String)
    (h : update_gitignore existing agent = some w) :
    w.data = unlines ((giStateOf existing).pre ++ [GITIGNORE_HEADER]
        ++ (giStateOf existing).sec
        ++ writtenPats (giStateOf existing)
            (finalNewPatterns agent (giStateOf existing)))
      ++ GITIGNORE_FOOTER ++ ['\n']
      ++ unlines (dropTrailingEmpties (giStateOf existing).post) ∧
    ∃ w2, w.data = w2 ++ ['\n'] ∧ w2.getLast? ≠ some '\n' := by
  rw [update_gitignore, Option.map_eq_some'] at h
  obtain ⟨a, ha, rfl⟩ := h
  have hdata : (String.mk a).data = a := rfl
  have haeq := giDecide_some_eq agent _ a ha
  constructor
  · rw [hdata, haeq,
      written_formula (giStateOf existing) _ (giInv_stateOf existing).post_nl]
  · refine ⟨dropRightWhile (· = '\n')
      (rebuildContent (giStateOf existing)
        (finalNewPatterns agent (giStateOf existing))), ?_, ?_⟩
    · rw [hdata, haeq]
    · intro hcon
      have := dropRightWhile_getLast_false _ _ _ hcon
      simp at this

/-- Witness for C3 at a concrete file and format. -/
theorem gitignore_frame_witness :
    ("keep\n# Added by urules\nCLAUDE.md\n# End urules section\n" : String).data
      = unlines ((giStateOf (some "keep\n")).pre ++ [GITIGNORE_HEADER]
          ++ (giStateOf (some "keep\n")).sec
          ++ writtenPats (giStateOf (some "keep\n"))
              (finalNewPatterns AgentName.Claude (giStateOf (some "keep\n"))))
        ++ GITIGNORE_FOOTER ++ ['\n']
        ++ unlines (dropTrailingEmpties (giStateOf (some "keep\n")).post) ∧
    ∃ w2, ("keep\n# Added by urules\nCLAUDE.md\n# End urules section\n" : String).data
        = w2 ++ ['\n'] ∧ w2.getLast? ≠ some '\n' :=
  gitignore_frame (some "keep\n") AgentName.Claude
    "keep\n# Added by urules\nCLAUDE.md\n# End urules section\n" (by decide)

/-- The five textual variations named by the spec: the pattern as-is,
with a leading slash, with a trailing slash, with both, and with all
slashes stripped. -/
def fiveVariationsSpec (p : List Char) : List (List Char) :=
  let t := trimSlashes p
  [p, '/' :: t, t ++ ['/'], '/' :: (t ++ ['/']), t]

theorem variations_eq_spec (p : List Char) : variations p = fiveVariationsSpec p := rfl

/-- C4: a required pattern is queued as new exactly when none of the
five variations (trimmed) is among the trimmed existing lines of
`pre ∪ section`; concretely, a file containing `/.cursor/` gets no
duplicate `.cursor/` line when merging Cursor patterns. -/
theorem gitignore_variation_detection :
    (∀ (agent : AgentName) (existing : Option String) (p : List Char),
        p ∈ finalNewPatterns agent (giStateOf existing) ↔
          (p ∈ patternsToAdd agent ∧
            ∀ v ∈ fiveVariationsSpec p,
              ¬ ∃ l, (l ∈ (giStateOf existing).pre ∨ l ∈ (giStateOf existing).sec)
                ∧ trim l = trim v)) ∧
    (update_gitignore (some "/.cursor/\n") AgentName.Cursor
        = some "/.cursor/\n# Added by urules\n# End urules section\n" ∧
      ("/.cursor/" : String).data
        ∈ linesOf ("/.cursor/\n# Added by urules\n# End urules section\n" : String).data ∧
      (".cursor/" : String).data
        ∉ linesOf ("/.cursor/\n# Added by urules\n# End urules section\n" : String).data) := by
  constructor
  · intro agent existing p
    have hinv := giInv_stateOf existing
    rw [finalNewPatterns, List.mem_filter]
    constructor
    · rintro ⟨hmem, hpred⟩
      rw [decide_eq_true_eq] at hpred
      refine ⟨hmem, ?_⟩
      intro v hv hcon
      obtain ⟨l, hl, hteq⟩ := hcon
      apply hpred
      rw [isPresent, List.any_eq_true]
      refine ⟨v, ?_, ?_⟩
      · rw [variations_eq_spec]
        exact hv
      · rw [decide_eq_true_eq]
        exact (hinv.existing_iff (trim v)).mpr ⟨l, hl, hteq⟩
    · rintro ⟨hmem, hnv⟩
      refine ⟨hmem, ?_⟩
      rw [decide_eq_true_eq]
      intro hcon
      rw [isPresent, List.any_eq_true] at hcon
      obtain ⟨v, hv, hvv⟩ := hcon
      rw [decide_eq_true_eq] at hvv
      obtain ⟨l, hl, hteq⟩ := (hinv.existing_iff (trim v)).mp hvv
      rw [variations_eq_spec] at hv
      exact hnv v hv ⟨l, hl, hteq⟩
  · exact ⟨by decide, by decide, by decide⟩


end Urules
